import Mathlib

/-!
Verification of the CAN signal-decoding core of `can_reader`.

The Python decoder (`src/can_decoder.py`) and the storage step of the GUI
worker (`src/can_gui.py`, `_process_message` / `_remove_signal_decoder`) are
embedded shallowly:

* Python `dict`s become association lists with `dictGet` / `dictSet` /
  `dictDel` mirroring lookup, overwriting assignment and `del`;
* `bytes` payloads become `List Nat` (one entry per byte);
* Python floats (scale, offset, physical values) are modelled as exact
  rationals `ℚ`, so `scale * raw + offset` is the exact multiply-add of
  §4.1 step 5;
* a custom decoder (an arbitrary Python callable that may raise) becomes a
  function into `Except String Decoded`; `decode_message` consequently
  returns `Except String Decoded`, where `Except.error` models an
  uncaught Python exception;
* `_extract_signal` itself can raise (`1 << -1` for a signed spec with bit
  length 0), so `extractSignal` returns `Except String ℚ` and
  `decode_message`'s `try`/`except` stores `Except.toOption` of it.
-/

/-- One decoded-frame result: the Python dict mapping signal name to a
physical value or `None` (modelled as `none`). -/
abbrev Decoded : Type := List (String × Option ℚ)

instance : DecidableEq (Except String Decoded) := fun a b =>
  match a, b with
  | .ok x, .ok y =>
    if h : x = y then .isTrue (congrArg Except.ok h)
    else .isFalse (fun hc => h (Except.ok.inj hc))
  | .error x, .error y =>
    if h : x = y then .isTrue (congrArg Except.error h)
    else .isFalse (fun hc => h (Except.error.inj hc))
  | .ok _, .error _ => .isFalse (fun hc => Except.noConfusion hc)
  | .error _, .ok _ => .isFalse (fun hc => Except.noConfusion hc)

/-- Association-list lookup, the embedding of Python `d[k]` / `k in d`. -/
def dictGet {κ α : Type} [DecidableEq κ] : List (κ × α) → κ → Option α
  | [], _ => none
  | (k', v) :: t, k => if k' = k then some v else dictGet t k

/-- Association-list assignment, the embedding of Python `d[k] = v`:
overwrite in place when the key is present (Python dicts keep the original
insertion position), append otherwise. -/
def dictSet {κ α : Type} [DecidableEq κ] : List (κ × α) → κ → α → List (κ × α)
  | [], k, v => [(k, v)]
  | (k', v') :: t, k, v => if k' = k then (k, v) :: t else (k', v') :: dictSet t k v

/-- Association-list deletion, the embedding of Python `del d[k]` (on the
duplicate-free lists produced by `dictSet` this removes exactly the one
binding for `k`; on a key that is absent it is the identity). -/
def dictDel {κ α : Type} [DecidableEq κ] (l : List (κ × α)) (k : κ) : List (κ × α) :=
  l.filter (fun p => decide (p.1 ≠ k))

/-- `SignalDefinition` from `src/can_decoder.py` (lines 9-23): the
constructor stores every argument unchanged, with no validation. Bit
positions and lengths are the natural numbers the decoder is used with;
scale and offset are modelled as exact rationals. -/
structure SignalDefinition where
  name : String
  start_bit : Nat
  length : Nat
  scale : ℚ
  offset : ℚ
  is_signed : Bool
  is_little_endian : Bool
  unit : String
deriving DecidableEq

/-- `CANDecoder.__init__` state (lines 29-31): `signal_definitions` maps a
CAN id to the list of definitions registered for it, `custom_decoders`
maps a CAN id to a custom decoding function (which may fail, modelling a
raising Python callable). -/
structure CANDecoder where
  signal_definitions : List (Nat × List SignalDefinition)
  custom_decoders : List (Nat × (List Nat → Except String Decoded))

/-- `CANDecoder.add_signal_definition` (lines 33-37): create the empty list
for a fresh id, then append the new definition — no parameter check of any
kind happens on this path. -/
def add_signal_definition (d : CANDecoder) (can_id : Nat) (s : SignalDefinition) :
    CANDecoder :=
  let cur := (dictGet d.signal_definitions can_id).getD []
  { d with signal_definitions := dictSet d.signal_definitions can_id (cur ++ [s]) }

/-- `CANDecoder.add_custom_decoder` (lines 39-41). -/
def add_custom_decoder (d : CANDecoder) (can_id : Nat)
    (f : List Nat → Except String Decoded) : CANDecoder :=
  { d with custom_decoders := dictSet d.custom_decoders can_id f }

/-- `CANDecoder.get_available_signals` (lines 108-113): the names of the
registered definitions, `[]` for an unknown id. -/
def get_available_signals (d : CANDecoder) (can_id : Nat) : List String :=
  ((dictGet d.signal_definitions can_id).getD []).map (fun s => s.name)

/-- The tested bit of the payload at "global" bit index `g`, as the two
extraction loops of `_extract_signal` address it.  The little-endian loop
tests bit `bit_idx` of byte `byte_idx` at `global_bit = byte_idx*8 + bit_idx`,
so global index `g` means machine bit `g % 8` of byte `g / 8`.  The
big-endian loop tests bit `bit_idx` of the byte at
`global_bit = byte_idx*8 + (7 - bit_idx)`, so there global index `g` means
machine bit `7 - g % 8` of byte `g / 8`. -/
def bitOf (le : Bool) (data : List Nat) (g : Nat) : Bool :=
  (data.getD (g / 8) 0).testBit (if le then g % 8 else 7 - g % 8)

/-- Global bit indices visited by the little-endian loop of
`_extract_signal` (lines 74-85): bytes in increasing order
(`range(start_byte, end_byte + 1)`), and inside each byte the eight global
indices `8*b .. 8*b+7` in increasing order (`bit_idx` 0..7). -/
def leGlobals (startByte endByte : Nat) : List Nat :=
  (List.range' startByte (endByte + 1 - startByte)).flatMap
    (fun b => (List.range 8).map (fun i => 8 * b + i))

/-- Global bit indices visited by the big-endian loop (lines 86-97): bytes
in decreasing order (`range(end_byte, start_byte - 1, -1)`); inside one
byte `bit_idx` runs 7..0 and the global index is `byte_idx*8 + (7 - bit_idx)`,
i.e. again `8*b .. 8*b+7` in increasing order. -/
def beGlobals (startByte endByte : Nat) : List Nat :=
  ((List.range' startByte (endByte + 1 - startByte)).reverse).flatMap
    (fun b => (List.range 8).map (fun i => 8 * b + i))

/-- The shared body of both extraction loops: walk the visited global
indices, and for each index inside `[start_bit, start_bit + length)` OR the
tested payload bit into the accumulator at position `bit_pos`
(`value |= 1 << bit_pos`), incrementing `bit_pos` for every in-range index
whether or not the bit was set. -/
def gatherBits (bit : Nat → Bool) (startBit length : Nat) :
    List Nat → Nat × Nat → Nat × Nat
  | [], vp => vp
  | g :: gs, (v, pos) =>
    gatherBits bit startBit length gs
      (if startBit ≤ g ∧ g < startBit + length then
        ((if bit g then v ||| 1 <<< pos else v), pos + 1)
      else (v, pos))

/-- The raw unsigned integer assembled by lines 74-97 of
`_extract_signal`. -/
def rawBits (le : Bool) (data : List Nat) (startBit length : Nat) : Nat :=
  let startByte := startBit / 8
  let endByte := (startBit + length - 1) / 8
  (gatherBits (bitOf le data) startBit length
    (if le then leGlobals startByte endByte else beGlobals startByte endByte) (0, 0)).1

/-- Lines 99-101 of `_extract_signal`:
`if signal.is_signed and value >= (1 << (signal.length - 1)): value -= (1 << signal.length)`.
Python's `and` short-circuits, so for an unsigned spec the shift is never
evaluated; for a signed spec with bit length 0 the shift amount is `-1`
and `1 << -1` raises `ValueError`, modelled by `Except.error`. -/
def signedAdjust (s : SignalDefinition) (value : Nat) : Except String ℤ :=
  if s.is_signed = true then
    if s.length = 0 then .error "ValueError: negative shift count"
    else if 2 ^ (s.length - 1) ≤ value then .ok ((value : ℤ) - 2 ^ s.length)
    else .ok (value : ℤ)
  else .ok (value : ℤ)

/-- `CANDecoder._extract_signal` (lines 62-106): span check returning `0.0`
for a too-short payload, raw bit assembly, two's-complement adjustment for
signed specs (which can raise, see `signedAdjust`), then the linear map
`value * scale + offset`.  `end_byte` is computed over ℤ because Python's
floor division makes it `-1` when `start_bit = 0` and `length = 0` (for a
positive divisor, ℤ's Euclidean division coincides with Python's floor
division). -/
def extractSignal (data : List Nat) (s : SignalDefinition) : Except String ℚ :=
  let end_byte : ℤ := ((s.start_bit : ℤ) + (s.length : ℤ) - 1) / 8
  if (data.length : ℤ) ≤ end_byte then .ok 0
  else
    (signedAdjust s (rawBits s.is_little_endian data s.start_bit s.length)).map
      (fun value2 => (value2 : ℚ) * s.scale + s.offset)

/-- `CANDecoder.decode_message` (lines 43-60): a registered custom decoder
wins and its result is returned verbatim (an exception it raises therefore
propagates, modelled by `Except.error` passing through); otherwise each
registered definition is extracted independently inside `try`/`except`
(lines 54-58): a successful extraction is stored as its value, a raising
one (a signed spec with bit length 0) stores `None` — exactly
`Except.toOption`. -/
def decode_message (d : CANDecoder) (can_id : Nat) (data : List Nat) :
    Except String Decoded :=
  match dictGet d.custom_decoders can_id with
  | some f => f data
  | none =>
    match dictGet d.signal_definitions can_id with
    | some sigs =>
      .ok (sigs.foldl (fun acc s => dictSet acc s.name (extractSignal data s).toOption) [])
    | none => .ok []

/-- The decoder half of `CANAnalyzerGUI._remove_signal_decoder`
(`src/can_gui.py` lines 808-837): keep the definitions whose name differs;
if none are left, delete the id's table entry entirely. -/
def remove_signal (d : CANDecoder) (can_id : Nat) (signal_name : String) : CANDecoder :=
  match dictGet d.signal_definitions can_id with
  | none => d
  | some sigs =>
    let keep := sigs.filter (fun s => decide (s.name ≠ signal_name))
    if keep.isEmpty then
      { d with signal_definitions := dictDel d.signal_definitions can_id }
    else
      { d with signal_definitions := dictSet d.signal_definitions can_id keep }

/-- The stored-series half of `_remove_signal_decoder`:
`del self.decoded_data[can_id][signal_name]` (guarded by presence checks).
The GUI's nested `defaultdict` is flattened to one dict keyed by the
series key `(can_id, signal_name)`. -/
def purge_series {α : Type} (store : List ((Nat × String) × α))
    (can_id : Nat) (signal_name : String) : List ((Nat × String) × α) :=
  dictDel store (can_id, signal_name)

/-- The per-series buffer step of `CANAnalyzerGUI._process_message`
(`src/can_gui.py` lines 1279-1289): append the new sample, then, if the
length now exceeds `max_points` (read afresh at this append), pop a single
oldest sample from the left.  Buffers are oldest-first lists. -/
def seriesAppend {α : Type} (maxPoints : Nat) (buf : List α) (x : α) : List α :=
  let b := buf ++ [x]
  if maxPoints < b.length then b.tail else b

/-- The eviction rule as §3/§4.4 of the specification word it: after the
append, evict oldest samples *while* the length exceeds the capacity
consulted at append time, so the result never exceeds that capacity. -/
def seriesAppendSpec {α : Type} (maxPoints : Nat) (buf : List α) (x : α) : List α :=
  let b := buf ++ [x]
  b.drop (b.length - maxPoints)

/-- The raw value determined by a list of global bit indices read in order,
first index least significant: the closed form of a `gatherBits` walk over
exactly those indices. -/
def bitsToNat (bit : Nat → Bool) : List Nat → Nat
  | [] => 0
  | g :: t => (if bit g then 1 else 0) + 2 * bitsToNat bit t

/-- The in-range global bit indices in the order the extraction loop visits
them; the `k`-th entry receives weight `2^k` in the raw value. -/
def walkOrder (le : Bool) (startBit length : Nat) : List Nat :=
  (if le then leGlobals (startBit / 8) ((startBit + length - 1) / 8)
    else beGlobals (startBit / 8) ((startBit + length - 1) / 8)).filter
    (fun g => decide (startBit ≤ g ∧ g < startBit + length))

/-- A byte assembled from its `n` machine bits, least significant first. -/
def natOfBits (f : Nat → Bool) : Nat → Nat
  | 0 => 0
  | n + 1 => (if f 0 then 1 else 0) + 2 * natOfBits (fun i => f (i + 1)) n

/-- The position of `g` in a list, if present. -/
def idxOf? (g : Nat) : List Nat → Option Nat
  | [] => none
  | x :: t => if x = g then some 0 else (idxOf? g t).map (fun i => i + 1)

/-- The encoding direction of the round-trip property, following the
specification's §4.1 step 3 bit ordering: an `L`-byte payload in which the
`k`-th bit visited by the matching extraction walk (`walkOrder`) carries
bit `k` of the raw value `v` and every other bit is 0.  Machine bit `b` of
byte `j` sits at global index `8*j + b` for little-endian and
`8*j + (7 - b)` for big-endian (the Motorola walk), inverse to `bitOf`. -/
def encodeRaw (le : Bool) (startBit length v L : Nat) : List Nat :=
  (List.range L).map (fun j =>
    natOfBits (fun b =>
      match idxOf? (8 * j + (if le then b else 7 - b)) (walkOrder le startBit length) with
      | some k => v.testBit k
      | none => false) 8)

/-! ### Concrete instances used by individual claims -/

/-- A spec whose field needs byte index 5 (start bit 40, 8 bits). -/
def c1Spec : SignalDefinition := ⟨"temp", 40, 8, 1, 0, false, true, ""⟩

/-- A second spec in the same frame whose field fits a 4-byte payload. -/
def c1SpecFit : SignalDefinition := ⟨"volt", 0, 8, 1, 0, false, true, ""⟩

def c1Decoder : CANDecoder := ⟨[(256, [c1SpecFit, c1Spec])], []⟩

/-- A spec with the invalid bit length 0. -/
def c2BadSpec : SignalDefinition := ⟨"bad", 0, 0, 1, 0, true, true, ""⟩

def c2Decoder : CANDecoder := ⟨[], []⟩

def c6Spec : SignalDefinition := ⟨"sig", 0, 8, 1, 0, false, true, ""⟩

def c6Custom : List Nat → Except String Decoded := fun _ => .ok [("x", some 1)]

def c6Decoder : CANDecoder := ⟨[(5, [c6Spec])], [(5, c6Custom)]⟩

def c7Decoder : CANDecoder := ⟨[], []⟩

def c10Custom : List Nat → Except String Decoded := fun _ => .error "boom"

def c10Decoder : CANDecoder := ⟨[], [(5, c10Custom)]⟩

def c8Spec : SignalDefinition := ⟨"temp", 0, 8, 1, 0, false, true, ""⟩

def c8Decoder : CANDecoder := ⟨[(256, [c8Spec])], []⟩

def c8Store : List ((Nat × String) × List (ℚ × ℚ)) := [((256, "temp"), [(0, 1)])]

/-- The signed 16-bit little-endian spec with scale 1 and offset 0. -/
def c4Spec : SignalDefinition := ⟨"s16", 0, 16, 1, 0, true, true, ""⟩

/-- SignalSpec(start_bit = 0, length = 16, unsigned, little-endian,
scale = 0.1, offset = 0) of the spec's concrete case. -/
def c9Spec : SignalDefinition := ⟨"v16", 0, 16, 1/10, 0, false, true, ""⟩

/-! ### Association-list lemmas -/

theorem dictGet_dictSet_self {κ α : Type} [DecidableEq κ] (l : List (κ × α)) (k : κ)
    (v : α) : dictGet (dictSet l k v) k = some v := by
  induction l with
  | nil => simp [dictSet, dictGet]
  | cons p t ih =>
    by_cases h : p.1 = k
    · simp [dictSet, dictGet, h]
    · simp [dictSet, dictGet, h, ih]

theorem dictGet_dictDel_self {κ α : Type} [DecidableEq κ] (l : List (κ × α)) (k : κ) :
    dictGet (dictDel l k) k = none := by
  induction l with
  | nil => simp [dictDel, dictGet]
  | cons p t ih =>
    by_cases h : p.1 = k
    · simpa [dictDel, List.filter_cons, h] using ih
    · simpa [dictDel, List.filter_cons, h, dictGet] using ih

theorem dictSet_of_not_mem {κ α : Type} [DecidableEq κ] (l : List (κ × α)) (k : κ)
    (v : α) (h : k ∉ l.map Prod.fst) : dictSet l k v = l ++ [(k, v)] := by
  induction l with
  | nil => rfl
  | cons p t ih =>
    simp only [List.map_cons, List.mem_cons, not_or] at h
    have hne : ¬ p.1 = k := fun hp => h.1 hp.symm
    simp [dictSet, hne, ih h.2]

/-- Building the result dict of `decode_message` over definitions with
pairwise distinct names just lists the (name, value) pairs in
registration order after the accumulator. -/
theorem foldl_dictSet_eq_append (val : SignalDefinition → Option ℚ) :
    ∀ (sigs : List SignalDefinition) (acc : List (String × Option ℚ)),
      (sigs.map (fun s => s.name)).Nodup →
      (∀ s ∈ sigs, s.name ∉ acc.map Prod.fst) →
      List.foldl (fun acc s => dictSet acc s.name (val s)) acc sigs =
        acc ++ sigs.map (fun s => (s.name, val s)) := by
  intro sigs
  induction sigs with
  | nil => intro acc _ _; simp
  | cons s rest ih =>
    intro acc hnd hfresh
    simp only [List.map_cons, List.nodup_cons] at hnd
    have hs : s.name ∉ acc.map Prod.fst := hfresh s (List.mem_cons_self s rest)
    have hstep : dictSet acc s.name (val s) = acc ++ [(s.name, val s)] :=
      dictSet_of_not_mem acc s.name (val s) hs
    have hfresh2 : ∀ t ∈ rest, t.name ∉ (acc ++ [(s.name, val s)]).map Prod.fst := by
      intro t ht
      simp only [List.map_append, List.mem_append, List.map_cons, List.map_nil,
        List.mem_singleton, not_or]
      refine ⟨hfresh t (List.mem_cons_of_mem s ht), ?_⟩
      intro hEq
      exact hnd.1 (hEq ▸ List.mem_map_of_mem (fun s => s.name) ht)
    calc List.foldl (fun acc s => dictSet acc s.name (val s)) acc (s :: rest)
        = List.foldl (fun acc s => dictSet acc s.name (val s))
            (acc ++ [(s.name, val s)]) rest := by rw [List.foldl_cons, hstep]
      _ = acc ++ [(s.name, val s)] ++ rest.map (fun s => (s.name, val s)) :=
          ih (acc ++ [(s.name, val s)]) hnd.2 hfresh2
      _ = acc ++ (s :: rest).map (fun s => (s.name, val s)) := by
          simp [List.append_assoc]

/-! ### Bit-extraction lemmas -/

theorem lor_two_pow (v pos : Nat) (h : v < 2 ^ pos) : v ||| 1 <<< pos = v + 2 ^ pos := by
  rw [Nat.one_shiftLeft]
  apply Nat.eq_of_testBit_eq
  intro i
  rw [Nat.testBit_or, Nat.testBit_two_pow]
  rcases Nat.lt_trichotomy i pos with hip | hip | hip
  · rw [show v + 2 ^ pos = 2 ^ pos + v by omega, Nat.testBit_two_pow_add_gt hip]
    simp [Nat.ne_of_gt hip]
  · subst hip
    rw [show v + 2 ^ i = 2 ^ i + v by omega, Nat.testBit_two_pow_add_eq,
      Nat.testBit_lt_two_pow h]
    simp
  · have h1 : v.testBit i = false := by
      refine Nat.testBit_lt_two_pow (lt_trans h ?_)
      exact Nat.pow_lt_pow_right (by omega) hip
    have h2 : (v + 2 ^ pos).testBit i = false := by
      refine Nat.testBit_lt_two_pow ?_
      have hle : (2:Nat) ^ (pos + 1) ≤ 2 ^ i := Nat.pow_le_pow_right (by omega) (by omega)
      have hps : (2:Nat) ^ (pos + 1) = 2 ^ pos * 2 := pow_succ 2 pos
      omega
    rw [h1, h2]
    simp [Nat.ne_of_lt hip]

/-- Closed form of the extraction loop body: starting from accumulator
`(v, pos)` with `v < 2^pos`, the walk adds the in-range bits (in visit
order, least significant first) scaled by `2^pos`, and advances `pos` by
the number of in-range indices. -/
theorem gatherBits_eq (bit : Nat → Bool) (sb len : Nat) :
    ∀ (G : List Nat) (v pos : Nat), v < 2 ^ pos →
      gatherBits bit sb len G (v, pos) =
        (v + 2 ^ pos * bitsToNat bit (G.filter (fun g => decide (sb ≤ g ∧ g < sb + len))),
          pos + (G.filter (fun g => decide (sb ≤ g ∧ g < sb + len))).length) := by
  intro G
  induction G with
  | nil => intro v pos _; simp [gatherBits, bitsToNat]
  | cons g gs ih =>
    intro v pos hv
    by_cases hp : sb ≤ g ∧ g < sb + len
    · have hfc : (g :: gs).filter (fun g => decide (sb ≤ g ∧ g < sb + len)) =
          g :: gs.filter (fun g => decide (sb ≤ g ∧ g < sb + len)) := by
        simp [List.filter_cons, hp]
      rw [hfc]
      simp only [gatherBits, if_pos hp]
      have hw : (if bit g then v ||| 1 <<< pos else v) =
          v + (if bit g then 2 ^ pos else 0) := by
        cases hbg : bit g
        · simp
        · simp [lor_two_pow v pos hv]
      have hps : (2:Nat) ^ (pos + 1) = 2 ^ pos * 2 := pow_succ 2 pos
      have hv2 : v + (if bit g then 2 ^ pos else 0) < 2 ^ (pos + 1) := by
        cases bit g
        · simp only [Bool.false_eq_true, if_false]
          omega
        · simp only [if_true]
          omega
      rw [hw, ih (v + (if bit g then 2 ^ pos else 0)) (pos + 1) hv2]
      refine congrArg₂ Prod.mk ?_ ?_
      · simp only [bitsToNat]
        cases bit g
        · simp only [Bool.false_eq_true, if_false]
          rw [hps]
          ring
        · simp only [if_true]
          rw [hps]
          ring
      · simp only [List.length_cons]
        omega
    · have hfc : (g :: gs).filter (fun g => decide (sb ≤ g ∧ g < sb + len)) =
          gs.filter (fun g => decide (sb ≤ g ∧ g < sb + len)) := by
        simp [List.filter_cons, hp]
      rw [hfc]
      simp only [gatherBits, if_neg hp]
      exact ih v pos hv

theorem bitsToNat_lt (bit : Nat → Bool) : ∀ l : List Nat, bitsToNat bit l < 2 ^ l.length := by
  intro l
  induction l with
  | nil => simp [bitsToNat]
  | cons g t ih =>
    simp only [bitsToNat, List.length_cons, pow_succ]
    cases bit g
    · simp only [Bool.false_eq_true, if_false]
      omega
    · simp only [if_true]
      omega

/-- A walk list whose `k`-th visited bit agrees with bit `k` of `v`
reconstructs exactly `v`. -/
theorem bitsToNat_eq_of_testBit :
    ∀ (l : List Nat) (bit : Nat → Bool) (v : Nat), v < 2 ^ l.length →
      (∀ k (h : k < l.length), bit (l.get ⟨k, h⟩) = v.testBit k) →
      bitsToNat bit l = v := by
  intro l
  induction l with
  | nil =>
    intro bit v hv _
    simp only [List.length_nil, pow_zero] at hv
    simp [bitsToNat]
    omega
  | cons g t ih =>
    intro bit v hv hbits
    have h0 : bit g = v.testBit 0 := hbits 0 (by simp)
    have hdiv : v / 2 < 2 ^ t.length := by
      have hps : (2:Nat) ^ (t.length + 1) = 2 ^ t.length * 2 := pow_succ 2 t.length
      simp only [List.length_cons] at hv
      omega
    have hrec : bitsToNat bit t = v / 2 := by
      refine ih bit (v / 2) hdiv ?_
      intro k hk
      have hk2 : k + 1 < (g :: t).length := by simp; omega
      have := hbits (k + 1) hk2
      rw [Nat.testBit_add_one] at this
      exact this
    have hb : (if v.testBit 0 then 1 else 0) = v % 2 := by
      rw [Nat.testBit_zero]
      rcases Nat.mod_two_eq_zero_or_one v with hm | hm <;> simp [hm]
    calc bitsToNat bit (g :: t) = (if bit g then 1 else 0) + 2 * bitsToNat bit t := rfl
      _ = (if v.testBit 0 then 1 else 0) + 2 * (v / 2) := by rw [h0, hrec]
      _ = v % 2 + 2 * (v / 2) := by rw [hb]
      _ = v := by omega

/-- The raw value of the extraction loop is the `bitsToNat` of the visit
order restricted to the field's bit range. -/
theorem rawBits_eq (le : Bool) (data : List Nat) (sb len : Nat) :
    rawBits le data sb len = bitsToNat (bitOf le data) (walkOrder le sb len) := by
  show (gatherBits (bitOf le data) sb len
      (if le then leGlobals (sb / 8) ((sb + len - 1) / 8)
        else beGlobals (sb / 8) ((sb + len - 1) / 8)) (0, 0)).1 =
    bitsToNat (bitOf le data)
      ((if le then leGlobals (sb / 8) ((sb + len - 1) / 8)
        else beGlobals (sb / 8) ((sb + len - 1) / 8)).filter
        (fun g => decide (sb ≤ g ∧ g < sb + len)))
  rw [gatherBits_eq (bitOf le data) sb len _ 0 0 (by norm_num)]
  simp

theorem flatMap_range' (s n : Nat) :
    (List.range' s n).flatMap (fun b => (List.range 8).map (fun i => 8 * b + i)) =
      List.range' (8 * s) (8 * n) := by
  induction n generalizing s with
  | zero => simp
  | succ n ih =>
    rw [List.range'_succ, List.flatMap_cons, ih (s + 1)]
    have h1 : (List.range 8).map (fun i => 8 * s + i) = List.range' (8 * s) 8 := by
      rw [List.range'_eq_map_range]
    have h2 : 8 * (s + 1) = 8 * s + 8 := by ring
    rw [h1, h2, List.range'_append_1]
    congr 1

theorem leGlobals_eq (sB eB : Nat) :
    leGlobals sB eB = List.range' (8 * sB) (8 * (eB + 1 - sB)) :=
  flatMap_range' sB (eB + 1 - sB)

theorem mem_beGlobals (sB eB g : Nat) : g ∈ beGlobals sB eB ↔ g ∈ leGlobals sB eB := by
  unfold beGlobals leGlobals
  simp only [List.mem_flatMap, List.mem_reverse]

theorem nodup_leGlobals (sB eB : Nat) : (leGlobals sB eB).Nodup := by
  rw [leGlobals_eq]
  exact List.nodup_range' _ _

theorem nodup_beGlobals (sB eB : Nat) : (beGlobals sB eB).Nodup := by
  unfold beGlobals
  rw [List.nodup_flatMap]
  constructor
  · intro b _
    refine List.Nodup.map ?_ (List.nodup_range 8)
    intro i j hij
    have hij2 : 8 * b + i = 8 * b + j := hij
    omega
  · have hnd : ((List.range' sB (eB + 1 - sB)).reverse).Nodup :=
      List.nodup_reverse.mpr (List.nodup_range' _ _)
    refine List.Pairwise.imp ?_ hnd
    intro a b hab x hxa hxb
    simp only [List.mem_map, List.mem_range] at hxa hxb
    rcases hxa with ⟨i, hi, hix⟩
    rcases hxb with ⟨j, hj, hjx⟩
    have hix2 : 8 * a + i = x := hix
    have hjx2 : 8 * b + j = x := hjx
    omega

theorem mem_walkOrder (le : Bool) (sb len g : Nat) (hlen : 1 ≤ len) :
    g ∈ walkOrder le sb len ↔ sb ≤ g ∧ g < sb + len := by
  unfold walkOrder
  simp only [List.mem_filter, decide_eq_true_eq]
  constructor
  · rintro ⟨_, h⟩
    exact h
  · intro h
    refine ⟨?_, h⟩
    have hsB : 8 * (sb / 8) ≤ g := by
      have := Nat.div_mul_le_self sb 8
      omega
    have hdivle : g / 8 ≤ (sb + len - 1) / 8 := Nat.div_le_div_right (by omega)
    have hg8 : g < 8 * (g / 8) + 8 := by
      have h1 := Nat.div_add_mod g 8
      have h2 : g % 8 < 8 := Nat.mod_lt g (by omega)
      omega
    have hsBle : sb / 8 ≤ (sb + len - 1) / 8 := Nat.div_le_div_right (by omega)
    have hmem : g ∈ List.range' (8 * (sb / 8)) (8 * ((sb + len - 1) / 8 + 1 - sb / 8)) := by
      rw [List.mem_range'_1]
      refine ⟨hsB, ?_⟩
      have h3 : 8 * (g / 8) ≤ 8 * ((sb + len - 1) / 8) := by omega
      omega
    cases le
    · simp only [Bool.false_eq_true, if_false]
      rw [mem_beGlobals, leGlobals_eq]
      exact hmem
    · simp only [if_true]
      rw [leGlobals_eq]
      exact hmem

theorem nodup_walkOrder (le : Bool) (sb len : Nat) : (walkOrder le sb len).Nodup := by
  unfold walkOrder
  refine List.Nodup.filter _ ?_
  cases le
  · simpa using nodup_beGlobals (sb / 8) ((sb + len - 1) / 8)
  · simpa using nodup_leGlobals (sb / 8) ((sb + len - 1) / 8)

theorem length_walkOrder (le : Bool) (sb len : Nat) (hlen : 1 ≤ len) :
    (walkOrder le sb len).length = len := by
  have hnd := nodup_walkOrder le sb len
  have hfin : (walkOrder le sb len).toFinset = Finset.Ico sb (sb + len) := by
    ext g
    simp only [List.mem_toFinset, Finset.mem_Ico]
    exact mem_walkOrder le sb len g hlen
  have hcard := List.toFinset_card_of_nodup hnd
  rw [hfin, Nat.card_Ico] at hcard
  omega

theorem natOfBits_testBit : ∀ (n : Nat) (f : Nat → Bool) (i : Nat), i < n →
    (natOfBits f n).testBit i = f i := by
  intro n
  induction n with
  | zero => intro f i h; omega
  | succ n ih =>
    intro f i h
    cases i with
    | zero =>
      simp only [natOfBits, Nat.testBit_zero]
      cases f 0
      · simp [Nat.add_mul_mod_self_left]
      · simp [Nat.add_mul_mod_self_left]
    | succ i =>
      rw [Nat.testBit_add_one]
      have hdiv : natOfBits f (n + 1) / 2 = natOfBits (fun i => f (i + 1)) n := by
        simp only [natOfBits]
        cases f 0
        · simp only [Bool.false_eq_true, if_false]
          omega
        · simp only [if_true]
          omega
      rw [hdiv, ih (fun i => f (i + 1)) i (by omega)]

theorem idxOf?_get : ∀ (l : List Nat), l.Nodup → ∀ (k : Nat) (h : k < l.length),
    idxOf? (l.get ⟨k, h⟩) l = some k := by
  intro l
  induction l with
  | nil => intro _ k h; simp at h
  | cons x t ih =>
    intro hnd k h
    cases k with
    | zero => simp [idxOf?]
    | succ k =>
      have hk : k < t.length := by
        simpa using h
      have hget : (x :: t).get ⟨k + 1, h⟩ = t.get ⟨k, hk⟩ := rfl
      rw [hget]
      simp only [idxOf?]
      have hx : ¬ x = t.get ⟨k, hk⟩ := by
        intro hEq
        have hmem : x ∈ t := hEq ▸ List.get_mem t k hk
        exact (List.nodup_cons.mp hnd).1 hmem
      rw [if_neg hx, ih (List.nodup_cons.mp hnd).2 k hk]
      rfl

/-- Reading the encoded payload at the `k`-th visited global index yields
bit `k` of the encoded raw value. -/
theorem bitOf_encodeRaw (le : Bool) (sb len v L : Nat) (hlen : 1 ≤ len)
    (hL : (sb + len - 1) / 8 < L) (k : Nat) (hk : k < (walkOrder le sb len).length) :
    bitOf le (encodeRaw le sb len v L) ((walkOrder le sb len).get ⟨k, hk⟩) =
      v.testBit k := by
  have hgmem : (walkOrder le sb len).get ⟨k, hk⟩ ∈ walkOrder le sb len :=
    List.get_mem (walkOrder le sb len) k hk
  have hrange : sb ≤ (walkOrder le sb len).get ⟨k, hk⟩ ∧
      (walkOrder le sb len).get ⟨k, hk⟩ < sb + len :=
    (mem_walkOrder le sb len _ hlen).mp hgmem
  have hbyte : (walkOrder le sb len).get ⟨k, hk⟩ / 8 < L := by
    have h1 : (walkOrder le sb len).get ⟨k, hk⟩ / 8 ≤ (sb + len - 1) / 8 :=
      Nat.div_le_div_right (by omega)
    omega
  have hIdx : idxOf? ((walkOrder le sb len).get ⟨k, hk⟩) (walkOrder le sb len) = some k :=
    idxOf?_get _ (nodup_walkOrder le sb len) k hk
  have hgetD : (encodeRaw le sb len v L).getD ((walkOrder le sb len).get ⟨k, hk⟩ / 8) 0 =
      natOfBits (fun b =>
        match idxOf? (8 * ((walkOrder le sb len).get ⟨k, hk⟩ / 8) + (if le then b else 7 - b))
            (walkOrder le sb len) with
        | some k => v.testBit k
        | none => false) 8 := by
    unfold encodeRaw
    rw [List.getD_eq_getElem?_getD, List.getElem?_map, List.getElem?_range hbyte]
    rfl
  have hmod : (walkOrder le sb len).get ⟨k, hk⟩ % 8 < 8 :=
    Nat.mod_lt _ (by omega)
  unfold bitOf
  rw [hgetD]
  have hmb : (if le then (walkOrder le sb len).get ⟨k, hk⟩ % 8
      else 7 - (walkOrder le sb len).get ⟨k, hk⟩ % 8) < 8 := by
    cases le
    · simp only [Bool.false_eq_true, if_false]
      omega
    · simp only [if_true]
      omega
  rw [natOfBits_testBit 8 _ _ hmb]
  show (match idxOf? (8 * ((walkOrder le sb len).get ⟨k, hk⟩ / 8) +
      (if le then (if le then (walkOrder le sb len).get ⟨k, hk⟩ % 8
        else 7 - (walkOrder le sb len).get ⟨k, hk⟩ % 8)
      else 7 - (if le then (walkOrder le sb len).get ⟨k, hk⟩ % 8
        else 7 - (walkOrder le sb len).get ⟨k, hk⟩ % 8)))
      (walkOrder le sb len) with
    | some k => v.testBit k
    | none => false) = v.testBit k
  have harg : 8 * ((walkOrder le sb len).get ⟨k, hk⟩ / 8) +
      (if le then (if le then (walkOrder le sb len).get ⟨k, hk⟩ % 8
        else 7 - (walkOrder le sb len).get ⟨k, hk⟩ % 8)
      else 7 - (if le then (walkOrder le sb len).get ⟨k, hk⟩ % 8
        else 7 - (walkOrder le sb len).get ⟨k, hk⟩ % 8)) =
      (walkOrder le sb len).get ⟨k, hk⟩ := by
    have hdm := Nat.div_add_mod ((walkOrder le sb len).get ⟨k, hk⟩) 8
    cases le
    · simp only [Bool.false_eq_true, if_false]
      omega
    · simp only [if_true]
      omega
  rw [harg, hIdx]

/-- The assembled raw value fits in `length` bits. -/
theorem rawBits_lt (le : Bool) (data : List Nat) (sb len : Nat) (hlen : 1 ≤ len) :
    rawBits le data sb len < 2 ^ len := by
  rw [rawBits_eq]
  have h := bitsToNat_lt (bitOf le data) (walkOrder le sb len)
  rwa [length_walkOrder le sb len hlen] at h

/-- Unsigned extraction of a field that fits: the raw bits scaled and
offset, with no two's-complement adjustment and no exception. -/
theorem extractSignal_unsigned (data : List Nat) (s : SignalDefinition)
    (hsg : s.is_signed = false)
    (hfit : ¬ data.length ≤ (s.start_bit + s.length - 1) / 8) :
    extractSignal data s =
      Except.ok ((rawBits s.is_little_endian data s.start_bit s.length : ℚ) * s.scale +
        s.offset) := by
  simp only [extractSignal]
  rw [if_neg (by omega)]
  have hsa : signedAdjust s (rawBits s.is_little_endian data s.start_bit s.length) =
      Except.ok (rawBits s.is_little_endian data s.start_bit s.length : ℤ) := by
    simp [signedAdjust, hsg]
  rw [hsa]
  show Except.ok (((rawBits s.is_little_endian data s.start_bit s.length : ℤ) : ℚ) *
      s.scale + s.offset) =
    Except.ok ((rawBits s.is_little_endian data s.start_bit s.length : ℚ) * s.scale +
      s.offset)
  simp only [Except.ok.injEq, Int.cast_natCast]

/-- A field whose end byte index (as Python computes it, with floor
division) is at least the payload length extracts to the default `0.0`,
before scale and offset and before any exception can occur. -/
theorem extractSignal_short (data : List Nat) (s : SignalDefinition)
    (h : (data.length : ℤ) ≤ ((s.start_bit : ℤ) + (s.length : ℤ) - 1) / 8) :
    extractSignal data s = Except.ok 0 := by
  simp only [extractSignal]
  rw [if_pos h]

example : dictGet [(3, "a"), (5, "b")] 5 = some "b" := by decide
example : dictSet [(3, "a"), (5, "b")] 3 "c" = [(3, "c"), (5, "b")] := by decide
example : dictDel [(3, "a"), (5, "b")] 3 = [(5, "b")] := by decide
example : rawBits true [0x2B, 0x01] 0 16 = 299 := by decide
example : extractSignal [1] ⟨"z", 0, 0, 1, 5, true, true, ""⟩ =
    Except.error "ValueError: negative shift count" := by
  simp only [extractSignal]
  rw [if_neg (by decide)]
  rfl
example : decode_message ⟨[(1, [⟨"z", 0, 0, 1, 5, true, true, ""⟩])], []⟩ 1 [1] =
    Except.ok [("z", none)] := by
  show Except.ok [("z", (extractSignal [1] ⟨"z", 0, 0, 1, 5, true, true, ""⟩).toOption)] =
    Except.ok [("z", none)]
  rw [show extractSignal [1] ⟨"z", 0, 0, 1, 5, true, true, ""⟩ =
    Except.error "ValueError: negative shift count" from by
      simp only [extractSignal]
      rw [if_neg (by decide)]
      rfl]
  rfl
example : rawBits false [0x2B, 0x01] 0 16 = 54400 := by decide
example : seriesAppend 3 [1, 2, 3] 4 = [2, 3, 4] := by decide

/-! ### Claim C2 — registration-time validation -/

/-- C2 counterexample: the claim says a spec with bit length 0 is rejected
at registration and never present in the signal table; but registering
`c2BadSpec` (length 0) on a fresh decoder leaves it in the table. -/
theorem C2_counterexample :
    c2BadSpec.length = 0 ∧
      dictGet (add_signal_definition c2Decoder 1 c2BadSpec).signal_definitions 1 =
        some [c2BadSpec] := by
  exact ⟨rfl, rfl⟩

/-- C2 amended: registration performs no validation at all — every
`SignalDefinition`, including one with bit length 0 or greater than 64, is
appended unchanged to the identifier's sequence, so invalid parameters do
reach decode. -/
theorem C2_amended (d : CANDecoder) (can_id : Nat) (s : SignalDefinition) :
    dictGet (add_signal_definition d can_id s).signal_definitions can_id =
      some ((dictGet d.signal_definitions can_id).getD [] ++ [s]) := by
  unfold add_signal_definition
  exact dictGet_dictSet_self ..

/-! ### Claim C6 — custom decoder precedence -/

/-- C6: when an identifier has both a registered custom decoder and
registered signal definitions, `decode_message` returns exactly the custom
decoder's output on the payload, verbatim; the signal definitions
contribute nothing (the result does not depend on them). -/
theorem C6_custom_precedence (d : CANDecoder) (can_id : Nat) (data : List Nat)
    (f : List Nat → Except String Decoded) (sigs : List SignalDefinition)
    (hc : dictGet d.custom_decoders can_id = some f)
    (_hs : dictGet d.signal_definitions can_id = some sigs) :
    decode_message d can_id data = f data := by
  unfold decode_message
  rw [hc]

/-- C6 witness: a decoder with both a custom decoder and a signal
definition registered under id 5 returns the custom decoder's output. -/
theorem C6_custom_precedence_witness :
    decode_message c6Decoder 5 [9, 9] = Except.ok [("x", some 1)] :=
  C6_custom_precedence c6Decoder 5 [9, 9] c6Custom [c6Spec] rfl rfl

/-! ### Claim C7 — unknown identifier -/

/-- C7: an identifier with no registered signals and no custom decoder
decodes to the empty mapping without error, and listing signal names for
an unknown identifier yields the empty sequence. -/
theorem C7_unknown_id (d : CANDecoder) (can_id : Nat) (data : List Nat)
    (hc : dictGet d.custom_decoders can_id = none)
    (hs : dictGet d.signal_definitions can_id = none) :
    decode_message d can_id data = Except.ok [] ∧
      get_available_signals d can_id = [] := by
  constructor
  · unfold decode_message
    rw [hc, hs]
  · unfold get_available_signals
    rw [hs]
    rfl

/-- C7 witness: the empty decoder on id 0 and payload [1, 2]. -/
theorem C7_unknown_id_witness :
    decode_message c7Decoder 0 [1, 2] = Except.ok [] ∧
      get_available_signals c7Decoder 0 = [] :=
  C7_unknown_id c7Decoder 0 [1, 2] rfl rfl

/-! ### Claim C10 — no failure isolation for custom decoders -/

/-- C10: a failing custom decoder's exception propagates out of
`decode_message` unchanged, whereas without a custom decoder the result is
always a normal mapping (`Except.ok`) — extraction failures are absorbed
per signal and never escape. -/
theorem C10_custom_failure (d : CANDecoder) (can_id : Nat) (data : List Nat) :
    (∀ (f : List Nat → Except String Decoded) (e : String),
        dictGet d.custom_decoders can_id = some f → f data = Except.error e →
          decode_message d can_id data = Except.error e) ∧
    (dictGet d.custom_decoders can_id = none →
      ∃ m, decode_message d can_id data = Except.ok m) := by
  constructor
  · intro f e hc hf
    simp only [decode_message, hc]
    exact hf
  · intro hc
    simp only [decode_message, hc]
    cases dictGet d.signal_definitions can_id with
    | none => exact ⟨[], rfl⟩
    | some sigs => exact ⟨_, rfl⟩

/-- C10 witness: a custom decoder that always fails makes
`decode_message` fail with the same error. -/
theorem C10_custom_failure_witness :
    decode_message c10Decoder 5 [] = Except.error "boom" :=
  (C10_custom_failure c10Decoder 5 []).1 c10Custom "boom" rfl rfl

/-! ### Claim C1 — short payloads -/

/-- C1 counterexample: the claim says the out-of-range signal's entry is
null (`none`); in the code `_extract_signal` returns `0.0` before any
exception can occur, so the entry is `some 0`, not `none`.  Here `"temp"`
needs byte index 5 of a 4-byte payload, while `"volt"` fits and decodes
normally. -/
theorem C1_counterexample :
    decode_message c1Decoder 256 [1, 2, 3, 4] =
      Except.ok [("volt", some 1), ("temp", some 0)] ∧
      (some (0 : ℚ) : Option ℚ) ≠ (none : Option ℚ) := by
  have hraw : rawBits true [1, 2, 3, 4] 0 8 = 1 := by decide
  have h1 : extractSignal [1, 2, 3, 4] c1SpecFit = Except.ok 1 := by
    rw [extractSignal_unsigned _ _ rfl (by decide)]
    show Except.ok ((rawBits true [1, 2, 3, 4] 0 8 : ℚ) * 1 + 0) = Except.ok 1
    rw [hraw]
    simp only [Except.ok.injEq]
    norm_num
  have h2 : extractSignal [1, 2, 3, 4] c1Spec = Except.ok 0 :=
    extractSignal_short _ _ (by decide)
  refine ⟨?_, by decide⟩
  show Except.ok [("volt", (extractSignal [1, 2, 3, 4] c1SpecFit).toOption),
      ("temp", (extractSignal [1, 2, 3, 4] c1Spec).toOption)] =
    Except.ok [("volt", some 1), ("temp", some 0)]
  rw [h1, h2]
  rfl

/-- C1 amended: for an identifier with registered definitions (with
pairwise distinct names) and no custom decoder, `decode_message` never
raises: it returns the mapping sending each signal name to the
`try`/`except` image of its extraction — `some` of the value on success,
`none` when the extraction raises (a signed spec with bit length 0) — and
each signal whose end byte index (as Python computes it, with floor
division) is ≥ the payload length contributes the out-of-range default
`some 0` (not `none`), while every other signal decodes to its normal
value. -/
theorem C1_amended (d : CANDecoder) (can_id : Nat) (data : List Nat)
    (sigs : List SignalDefinition)
    (hc : dictGet d.custom_decoders can_id = none)
    (hs : dictGet d.signal_definitions can_id = some sigs)
    (hn : (sigs.map (fun s => s.name)).Nodup) :
    decode_message d can_id data =
      Except.ok (sigs.map (fun s => (s.name, (extractSignal data s).toOption))) ∧
    ∀ s ∈ sigs, ((data.length : ℤ) ≤ ((s.start_bit : ℤ) + (s.length : ℤ) - 1) / 8) →
      extractSignal data s = Except.ok 0 := by
  constructor
  · simp only [decode_message, hc, hs]
    rw [foldl_dictSet_eq_append (fun s => (extractSignal data s).toOption) sigs [] hn
      (by intro s _; simp)]
    rfl
  · intro s _ hshort
    exact extractSignal_short data s hshort

/-- C1 witness: instantiating the amended claim on the concrete decoder of
the counterexample. -/
theorem C1_amended_witness :
    decode_message c1Decoder 256 [1, 2, 3, 4] =
      Except.ok [("volt", (extractSignal [1, 2, 3, 4] c1SpecFit).toOption),
        ("temp", (extractSignal [1, 2, 3, 4] c1Spec).toOption)] ∧
      extractSignal [1, 2, 3, 4] c1Spec = Except.ok 0 := by
  have h := C1_amended c1Decoder 256 [1, 2, 3, 4] [c1SpecFit, c1Spec] rfl rfl (by decide)
  exact ⟨h.1, h.2 c1Spec (List.mem_cons_of_mem _ (List.mem_cons_self _ _)) (by decide)⟩

/-! ### Claim C5 — bounded series buffers -/

/-- C5 counterexample: the worker pops at most one oldest sample per
append (`if`, not `while`), and the capacity is re-read from the GUI at
every append; so a series grown to 5 samples under capacity 10 still has 5
samples after an append performed under capacity 3 — the length exceeds
the capacity consulted at append time, and the claim's while-eviction
(`seriesAppendSpec`) would instead have left 3. -/
theorem C5_counterexample :
    List.foldl (seriesAppend 10) ([] : List Nat) [0, 1, 2, 3, 4] = [0, 1, 2, 3, 4] ∧
    (seriesAppend 3 [0, 1, 2, 3, 4] 5).length = 5 ∧
    ¬ (seriesAppend 3 [0, 1, 2, 3, 4] 5).length ≤ 3 ∧
    seriesAppendSpec 3 [0, 1, 2, 3, 4] 5 = [3, 4, 5] := by
  decide

/-- C5 amended: append adds the new sample and then evicts the single
oldest sample if (not while) the length exceeds the capacity consulted at
append time; hence the length never exceeds that capacity provided it did
not already exceed it before the append — in particular always, under a
constant capacity — and with capacity 3, appending 5 samples to one
series leaves exactly the last 3, oldest-first. -/
theorem C5_amended :
    (∀ (α : Type) (cap : Nat) (buf : List α) (x : α),
        buf.length ≤ cap → (seriesAppend cap buf x).length ≤ cap) ∧
    List.foldl (seriesAppend 3) ([] : List Nat) [0, 1, 2, 3, 4] = [2, 3, 4] := by
  constructor
  · intro α cap buf x h
    simp only [seriesAppend]
    by_cases hlen : cap < (buf ++ [x]).length
    · rw [if_pos hlen, List.length_tail]
      simp only [List.length_append, List.length_cons, List.length_nil] at *
      omega
    · rw [if_neg hlen]
      simp only [List.length_append, List.length_cons, List.length_nil] at *
      omega
  · decide

/-- C5 witness for the amended invariant at a concrete input. -/
theorem C5_amended_witness : (seriesAppend 3 ([0, 1, 2] : List Nat) 3).length ≤ 3 :=
  C5_amended.1 Nat 3 [0, 1, 2] 3 (by decide)

/-! ### Claim C8 — removal purges -/

/-- Unfolding equation for `remove_signal` (the `let` written out). -/
theorem remove_signal_eq (d : CANDecoder) (can_id : Nat) (nm : String) :
    remove_signal d can_id nm =
      match dictGet d.signal_definitions can_id with
      | none => d
      | some sigs =>
        if (sigs.filter (fun s => decide (s.name ≠ nm))).isEmpty then
          { d with signal_definitions := dictDel d.signal_definitions can_id }
        else
          { d with signal_definitions :=
              (dictSet d.signal_definitions can_id
                (sigs.filter (fun s => decide (s.name ≠ nm)))) } := rfl

/-- C8: after removing a signal by (identifier, name), the name no longer
appears among the identifier's listed signal names, the stored series for
that series key is gone, and if no definitions are left for the identifier
its table entry is removed entirely. -/
theorem C8_removal (α : Type) (d : CANDecoder) (store : List ((Nat × String) × α))
    (can_id : Nat) (nm : String) :
    nm ∉ get_available_signals (remove_signal d can_id nm) can_id ∧
    dictGet (purge_series store can_id nm) (can_id, nm) = none ∧
    (∀ sigs, dictGet d.signal_definitions can_id = some sigs →
      sigs.filter (fun s => decide (s.name ≠ nm)) = [] →
      dictGet (remove_signal d can_id nm).signal_definitions can_id = none) := by
  refine ⟨?_, dictGet_dictDel_self store (can_id, nm), ?_⟩
  · cases h : dictGet d.signal_definitions can_id with
    | none =>
      simp only [remove_signal_eq, h, get_available_signals, Option.getD_none,
        List.map_nil]
      exact List.not_mem_nil nm
    | some sigs =>
      by_cases hk : (sigs.filter (fun s => decide (s.name ≠ nm))).isEmpty
      · simp only [remove_signal_eq, h, if_pos hk, get_available_signals,
          dictGet_dictDel_self, Option.getD_none, List.map_nil]
        exact List.not_mem_nil nm
      · simp only [remove_signal_eq, h, if_neg hk, get_available_signals,
          dictGet_dictSet_self, Option.getD_some]
        intro hmem
        rcases List.mem_map.mp hmem with ⟨s, hsmem, hname⟩
        rcases List.mem_filter.mp hsmem with ⟨_, hdec⟩
        exact (of_decide_eq_true hdec) hname
  · intro sigs hsigs hempty
    have hk : (sigs.filter (fun s => decide (s.name ≠ nm))).isEmpty = true := by
      rw [hempty]
      rfl
    simp only [remove_signal_eq, hsigs, if_pos hk]
    exact dictGet_dictDel_self d.signal_definitions can_id

/-- C8 witness: removing `"temp"` registered under id 256 empties its
table entry, drops its name from the listing, and purges its series. -/
theorem C8_removal_witness :
    "temp" ∉ get_available_signals (remove_signal c8Decoder 256 "temp") 256 ∧
    dictGet (purge_series c8Store 256 "temp") (256, "temp") = none ∧
    dictGet (remove_signal c8Decoder 256 "temp").signal_definitions 256 = none := by
  refine ⟨(C8_removal _ c8Decoder c8Store 256 "temp").1,
    (C8_removal _ c8Decoder c8Store 256 "temp").2.1,
    (C8_removal _ c8Decoder c8Store 256 "temp").2.2 [c8Spec] rfl ?_⟩
  simp [c8Spec]


/-! ### Claim C3 — encode/decode round trip -/

/-- C3: for every bit width 1–16, either endianness and every start
offset, encoding a raw unsigned integer into a payload per the
specification's §4.1 step 3 bit ordering (`encodeRaw`) and extracting with
the matching unsigned spec (scale 1, offset 0) recovers the raw integer
exactly — both at the raw-bits level and through the full extraction. -/
theorem C3_roundtrip (le : Bool) (sb len v L : Nat) (h1 : 1 ≤ len) (_h16 : len ≤ 16)
    (hv : v < 2 ^ len) (hL : (sb + len - 1) / 8 < L) :
    rawBits le (encodeRaw le sb len v L) sb len = v ∧
    extractSignal (encodeRaw le sb len v L) ⟨"sig", sb, len, 1, 0, false, le, ""⟩ =
      Except.ok (v : ℚ) := by
  have hdata : (encodeRaw le sb len v L).length = L := by
    unfold encodeRaw
    rw [List.length_map, List.length_range]
  have hraw : rawBits le (encodeRaw le sb len v L) sb len = v := by
    rw [rawBits_eq]
    refine bitsToNat_eq_of_testBit _ _ v ?_ ?_
    · rw [length_walkOrder le sb len h1]
      exact hv
    · intro k hkk
      exact bitOf_encodeRaw le sb len v L h1 hL k hkk
  refine ⟨hraw, ?_⟩
  have hfit2 : ¬ (encodeRaw le sb len v L).length ≤ (sb + len - 1) / 8 := by
    rw [hdata]
    omega
  rw [extractSignal_unsigned _ _ rfl hfit2]
  show Except.ok ((rawBits le (encodeRaw le sb len v L) sb len : ℚ) * 1 + 0) =
    Except.ok (v : ℚ)
  rw [hraw]
  simp only [Except.ok.injEq]
  ring

/-- C3 witness: big-endian, start bit 3, width 11, raw value 1000, 2-byte
payload. -/
theorem C3_roundtrip_witness :
    (1 ≤ 11 ∧ 11 ≤ 16 ∧ 1000 < 2 ^ 11 ∧ (3 + 11 - 1) / 8 < 2) ∧
    extractSignal (encodeRaw false 3 11 1000 2) ⟨"sig", 3, 11, 1, 0, false, false, ""⟩ =
      Except.ok (1000 : ℚ) :=
  ⟨by decide,
    (C3_roundtrip false 3 11 1000 2 (by decide) (by decide) (by decide) (by decide)).2⟩

/-! ### Claim C4 — signed conversion -/

/-- C4: for a signed spec whose field fits, if bit `length - 1` of the
extracted raw value is set, `2 ^ length` is subtracted from the raw value
before scale and offset are applied. -/
theorem C4_signed (data : List Nat) (s : SignalDefinition)
    (hsg : s.is_signed = true) (h1 : 1 ≤ s.length)
    (hfit : (s.start_bit + s.length - 1) / 8 < data.length)
    (hbit : (rawBits s.is_little_endian data s.start_bit s.length).testBit
      (s.length - 1) = true) :
    extractSignal data s =
      Except.ok (((rawBits s.is_little_endian data s.start_bit s.length : ℚ) -
        2 ^ s.length) * s.scale + s.offset) := by
  have hge : 2 ^ (s.length - 1) ≤ rawBits s.is_little_endian data s.start_bit s.length :=
    Nat.testBit_implies_ge hbit
  simp only [extractSignal]
  rw [if_neg (by omega)]
  simp only [signedAdjust]
  rw [if_pos hsg, if_neg (by omega : ¬ s.length = 0), if_pos hge]
  show Except.ok ((((rawBits s.is_little_endian data s.start_bit s.length : ℤ) -
      2 ^ s.length : ℤ) : ℚ) * s.scale + s.offset) =
    Except.ok (((rawBits s.is_little_endian data s.start_bit s.length : ℚ) -
      2 ^ s.length) * s.scale + s.offset)
  simp only [Except.ok.injEq]
  push_cast
  ring

/-- C4 witness: a signed 16-bit little-endian field holding bit pattern
`0xFFFF` decodes to raw value `-1`, and `0x8000` to `-32768`. -/
theorem C4_signed_witness :
    extractSignal [255, 255] c4Spec = Except.ok (-1) ∧
    extractSignal [0, 128] c4Spec = Except.ok (-32768) := by
  have hr1 : rawBits true [255, 255] 0 16 = 65535 := by decide
  have hr2 : rawBits true [0, 128] 0 16 = 32768 := by decide
  constructor
  · have h := C4_signed [255, 255] c4Spec rfl (by decide) (by decide) (by decide)
    rw [h]
    show Except.ok (((rawBits true [255, 255] 0 16 : ℚ) - 2 ^ 16) * 1 + 0) =
      Except.ok (-1)
    rw [hr1]
    simp only [Except.ok.injEq]
    norm_num
  · have h := C4_signed [0, 128] c4Spec rfl (by decide) (by decide) (by decide)
    rw [h]
    show Except.ok (((rawBits true [0, 128] 0 16 : ℚ) - 2 ^ 16) * 1 + 0) =
      Except.ok (-32768)
    rw [hr2]
    simp only [Except.ok.injEq]
    norm_num

/-! ### Claim C9 — the little-endian concrete case -/

/-- C9: payload `[0x2B, 0x01]` with SignalSpec(start_bit 0, length 16,
unsigned, little-endian, scale 0.1, offset 0) extracts raw value
`0x012B = 299` and physical value `29.9` (scale and offset computed in
exact rational arithmetic). -/
theorem C9_little_endian_case :
    rawBits true [0x2B, 0x01] 0 16 = 299 ∧
    extractSignal [0x2B, 0x01] c9Spec = Except.ok (29.9 : ℚ) := by
  have hraw : rawBits true [43, 1] 0 16 = 299 := by decide
  refine ⟨hraw, ?_⟩
  rw [extractSignal_unsigned [43, 1] c9Spec rfl (by decide)]
  show Except.ok ((rawBits true [43, 1] 0 16 : ℚ) * (1 / 10) + 0) = Except.ok (29.9 : ℚ)
  rw [hraw]
  simp only [Except.ok.injEq]
  norm_num
